import Mathlib

set_option linter.unusedVariables false

/-!
Shallow embedding of the core of the bcktstng backtesting engine
(`src/quant/engine/{orders,execution,events,portfolio}.py`,
`src/quant/data/{pit_reader,adjusters}.py`, `src/quant/research/validation.py`)
together with proofs about the embedded definitions.

Modelling conventions:
* Python `float` values are modelled as exact rationals (`ℚ`); `round(x, 10)`
  is modelled as round-half-even onto the `1e-10` grid (`round10`).
* `datetime` instants (always normalised to UTC by the code before use) are
  modelled as integers (`ℤ`); `_ensure_utc` is the identity on this model.
* Python `int` is `ℤ` (or `ℕ` where the source value is a count).
* Python dictionaries keyed by symbol/currency are modelled as total functions
  (`dict.get` with a default) or as `Option`-valued functions (plain lookup).
* Code that raises is modelled with `Except`.
-/

/-- Round-half-even (banker's rounding) of a rational to an integer, the
rounding mode of Python's builtin `round`. -/
def roundHalfEven (x : ℚ) : ℤ :=
  let f := ⌊x⌋
  let r := x - f
  if r < 1/2 then f
  else if 1/2 < r then f + 1
  else if Even f then f else f + 1

/-- Model of Python `round(x, 10)`: round-half-even onto the `1e-10` grid. -/
def round10 (x : ℚ) : ℚ := (roundHalfEven (x * 10 ^ 10) : ℚ) / 10 ^ 10


/-! ## Order state machine (`src/quant/engine/orders.py`) -/

inductive OrderSide where
  | BUY
  | SELL
deriving DecidableEq, Repr

inductive OrderType where
  | MARKET
  | LIMIT
deriving DecidableEq, Repr

inductive TimeInForce where
  | DAY
  | IOC
  | FOK
deriving DecidableEq, Repr

inductive OrderState where
  | NEW
  | WORKING
  | PARTIALLY_FILLED
  | FILLED
  | CANCELED
  | REJECTED
deriving DecidableEq, Repr

structure Order where
  id : String
  symbol_id : ℕ
  side : OrderSide
  quantity : ℤ
  type : OrderType := OrderType.MARKET
  tif : TimeInForce := TimeInForce.DAY
  limit_price : Option ℚ := none
  state : OrderState := OrderState.NEW
  filled_quantity : ℤ := 0
deriving DecidableEq, Repr

def Order.acknowledge (o : Order) : Order :=
  if o.state ≠ OrderState.NEW then o
  else { o with state := OrderState.WORKING }

def Order.cancel (o : Order) : Order :=
  if o.state = OrderState.FILLED ∨ o.state = OrderState.CANCELED ∨
      o.state = OrderState.REJECTED then o
  else { o with state := OrderState.CANCELED }

def Order.reject (o : Order) : Order :=
  if o.state = OrderState.FILLED ∨ o.state = OrderState.CANCELED ∨
      o.state = OrderState.REJECTED then o
  else { o with state := OrderState.REJECTED }

def Order.add_fill (o : Order) (qty : ℤ) : Order :=
  if o.state = OrderState.CANCELED ∨ o.state = OrderState.REJECTED ∨
      o.state = OrderState.FILLED then o
  else
    let fq := o.filled_quantity + qty
    if fq ≥ o.quantity then
      { o with filled_quantity := o.quantity, state := OrderState.FILLED }
    else
      { o with filled_quantity := fq, state := OrderState.PARTIALLY_FILLED }

/-- End-of-cycle time-in-force enforcement.  The `liquidity_available`
argument is accepted (as in the source) but unused. -/
def Order.handle_end_of_cycle (o : Order) (liquidity_available : ℤ) : Order :=
  let o1 :=
    if o.tif = TimeInForce.IOC ∧
        (o.state = OrderState.NEW ∨ o.state = OrderState.WORKING ∨
          o.state = OrderState.PARTIALLY_FILLED) ∧
        o.filled_quantity < o.quantity then
      o.cancel
    else o
  if o1.tif = TimeInForce.FOK ∧
      (o1.state = OrderState.NEW ∨ o1.state = OrderState.WORKING ∨
        o1.state = OrderState.PARTIALLY_FILLED) ∧
      o1.filled_quantity < o1.quantity then
    { o1 with filled_quantity := 0 }.cancel
  else o1

/-- Concrete FOK order used to witness the end-of-cycle theorems: quantity
100, partially filled with 60 during the cycle. -/
def sampleFokOrder : Order :=
  { id := "2"
    symbol_id := 1
    side := OrderSide.BUY
    quantity := 100
    tif := TimeInForce.FOK
    state := OrderState.PARTIALLY_FILLED
    filled_quantity := 60 }

/-- Concrete IOC order used to witness the end-of-cycle theorems. -/
def sampleIocOrder : Order :=
  { id := "1"
    symbol_id := 1
    side := OrderSide.BUY
    quantity := 100
    tif := TimeInForce.IOC
    state := OrderState.PARTIALLY_FILLED
    filled_quantity := 60 }


/-! ## Execution simulator (`src/quant/engine/execution.py`) -/

structure Quote where
  bid : ℚ
  ask : ℚ
deriving DecidableEq, Repr

def Quote.mid (q : Quote) : ℚ := (q.bid + q.ask) / 2

def Quote.spread (q : Quote) : ℚ := q.ask - q.bid

structure Fill where
  price : ℚ
  quantity : ℤ
deriving DecidableEq, Repr

/-- Time-of-day bucket labels resolved by `_tod_bucket`. -/
inductive TodBucket where
  | OPEN
  | MID
  | CLOSE
deriving DecidableEq, Repr

/-- Configuration of `ExecutionSimulator.__init__`.  Two pieces of the source
are kept abstract as function-valued fields, so every theorem below holds for
all of their behaviours: `tod_bucket_of` models the timezone arithmetic of
`_tod_bucket` for a present timestamp (the `ts is None ⇒ MID` branch is coded
in `simulate` itself), and `sqrtFn` models `math.sqrt`, used only inside the
market-impact term. -/
structure ExecutionSimulator where
  cost_calculator : Option (String → String → ℤ → ℚ → ℚ) := none
  adv_by_symbol : ℕ → Option ℤ := fun _ => none
  adv_cap_fraction : ℚ := 1/10
  impact_alpha : ℚ := 1/10
  sigma_by_symbol : ℕ → Option ℚ := fun _ => none
  tod_spread_multipliers : TodBucket → ℚ := fun b =>
    match b with
    | TodBucket.OPEN => 3/2
    | TodBucket.CLOSE => 13/10
    | TodBucket.MID => 1
  tod_bucket_of : String → ℤ → TodBucket := fun _ _ => TodBucket.MID
  sqrtFn : ℚ → ℚ := fun _ => 0

/-- Step 6 of `simulate`: the LIMIT adjustment (BUY capped at the limit,
SELL floored at it) followed by the re-clamp into `[bid, ask]`. -/
def limitClamp (side : OrderSide) (lp : ℚ) (quote : Quote) (target1 : ℚ) : ℚ :=
  let t2 := if side = OrderSide.BUY ∧ target1 > lp then lp else target1
  let t3 := if side = OrderSide.SELL ∧ t2 < lp then lp else t2
  min (max t3 quote.bid) quote.ask

/-- The price-determination middle of `simulate` (steps 3–6 of the source:
time-of-day spread widening, market impact, urgency spread capture, clamping
into `[bid, ask]` and the LIMIT adjustment with its re-clamp), factored out
of `ExecutionSimulator.simulate` for modular reasoning. -/
def simTargetPrice (sim : ExecutionSimulator) (order : Order) (quote : Quote)
    (venue : String) (ts : Option ℤ) (max_fillable adv : ℤ) : ℚ :=
  let mid := quote.mid
  let spread := quote.spread
  let bucket : TodBucket :=
    match ts with
    | none => TodBucket.MID
    | some t => sim.tod_bucket_of venue t
  let spread_multiplier := sim.tod_spread_multipliers bucket
  let effective_spread := spread * spread_multiplier
  let urgency_k : ℚ := if order.type = OrderType.LIMIT then 1/2 else 3/4
  let sigma : ℚ := (sim.sigma_by_symbol order.symbol_id).getD 0
  let impact : ℚ := (if order.side = OrderSide.BUY then 1 else -1) * sigma *
    sim.sqrtFn (((max max_fillable 1 : ℤ) : ℚ) / ((max adv 1 : ℤ) : ℚ)) *
    sim.impact_alpha
  let impacted_mid := mid + impact
  let target0 := impacted_mid +
    (if order.side = OrderSide.BUY then urgency_k * effective_spread
     else -(urgency_k * effective_spread))
  let target1 := min (max target0 quote.bid) quote.ask
  if order.type = OrderType.LIMIT then
    limitClamp order.side (order.limit_price.getD 0) quote target1
  else target1

/-- `ExecutionSimulator.simulate`.  Returns the fill list and total cost, or
an error for a LIMIT order with no limit price. -/
def ExecutionSimulator.simulate (sim : ExecutionSimulator) (order : Order)
    (quote : Quote) (venue : String) (available_liquidity : ℤ)
    (ts : Option ℤ := none) : Except String (List Fill × ℚ) :=
  if order.type = OrderType.LIMIT ∧ order.limit_price = none then
    Except.error "Limit order missing limit_price"
  else
    let adv : ℤ := (sim.adv_by_symbol order.symbol_id).getD available_liquidity
    let cap : ℤ := ⌊max 0 (min (available_liquidity : ℚ) (sim.adv_cap_fraction * adv))⌋
    let max_fillable : ℤ :=
      min order.quantity (if order.tif ≠ TimeInForce.FOK then cap else order.quantity)
    if max_fillable ≤ 0 then Except.ok ([], 0)
    else
      let target : ℚ := simTargetPrice sim order quote venue ts max_fillable adv
      if order.tif = TimeInForce.FOK ∧ max_fillable < order.quantity then
        Except.ok ([], 0)
      else
        let fill_qty : ℤ :=
          if order.tif ≠ TimeInForce.IOC then max_fillable
          else min max_fillable available_liquidity
        let fills : List Fill :=
          if fill_qty > 0 then [{ price := round10 target, quantity := fill_qty }] else []
        let filled : ℤ := if fill_qty > 0 then fill_qty else 0
        let cost_total : ℚ :=
          match sim.cost_calculator with
          | some cc =>
            if filled > 0 then
              cc venue (if order.side = OrderSide.BUY then "BUY" else "SELL") filled target
            else 0
          | none => 0
        Except.ok (fills, cost_total)

/-! ## Event queue (`src/quant/engine/events.py`) -/

inductive EventType where
  | CLOCK
  | BAR
  | FX
  | CORPORATE_ACTION
deriving DecidableEq, Repr

/-- The `IntEnum` value of each event type. -/
def EventType.rank : EventType → ℕ
  | EventType.CLOCK => 0
  | EventType.BAR => 1
  | EventType.FX => 2
  | EventType.CORPORATE_ACTION => 3

structure Event where
  ts : ℤ
  type : EventType
  payload : Option ℤ := none
  seq : ℕ := 0
deriving DecidableEq, Repr

/-- The ordering key `(timestamp, type_rank, insertion_sequence)` set by
`Event.__post_init__`. -/
def Event.sort_index (e : Event) : ℤ × ℕ × ℕ := (e.ts, e.type.rank, e.seq)

/-- Strict lexicographic comparison of sort keys. -/
def keyLt (a b : Event) : Prop :=
  a.ts < b.ts ∨ (a.ts = b.ts ∧ (a.type.rank < b.type.rank ∨
    (a.type.rank = b.type.rank ∧ a.seq < b.seq)))

/-- The sort key as a lexicographically ordered triple (used to reason about
`keyLt` through the `ℤ ×ₗ ℕ ×ₗ ℕ` linear order). -/
def keyOf (e : Event) : ℤ ×ₗ ℕ ×ₗ ℕ := toLex (e.ts, toLex (e.type.rank, e.seq))

instance (a b : Event) : Decidable (keyLt a b) := by
  unfold keyLt; infer_instance

/-- The event-queue state: the heap entries (as the multiset of keyed events,
kept here in insertion order) and the insertion counter.  `heapq` stores the
tuples `(ts, type_rank, seq, event)` in binary-heap array order; the model
keeps their collection and relies on `heappop`'s contract of removing the
least tuple, which `pop` below implements directly. -/
structure EventQueue where
  heap : List Event := []
  seq_counter : ℕ := 0
deriving Repr

def EventQueue.push (q : EventQueue) (ts : ℤ) (type : EventType)
    (payload : Option ℤ := none) : Event × EventQueue :=
  let evt : Event := { ts := ts, type := type, payload := payload, seq := q.seq_counter }
  (evt, { heap := q.heap ++ [evt], seq_counter := q.seq_counter + 1 })

/-- The least element of `h :: t` in `keyLt` order. -/
def minByKey (h : Event) (t : List Event) : Event :=
  t.foldl (fun acc e => if keyLt e acc then e else acc) h

def EventQueue.pop (q : EventQueue) : Option (Event × EventQueue) :=
  match q.heap with
  | [] => none
  | h :: t =>
    let m := minByKey h t
    some (m, { heap := (h :: t).erase m, seq_counter := q.seq_counter })

def EventQueue.drainAux : ℕ → EventQueue → List Event
  | 0, _ => []
  | fuel + 1, q =>
    match q.pop with
    | none => []
    | some (e, q2) => e :: EventQueue.drainAux fuel q2

/-- The sequence of events returned by successive `pop` calls until empty. -/
def EventQueue.drain (q : EventQueue) : List Event :=
  EventQueue.drainAux q.heap.length q

/-- Push a whole list of `(ts, type, payload)` requests into an empty queue. -/
def EventQueue.pushAll (items : List (ℤ × EventType × Option ℤ)) : EventQueue :=
  items.foldl (fun q it => (q.push it.1 it.2.1 it.2.2).2) {}

/-! ## Point-in-time data access (`src/quant/data/pit_reader.py`) -/

/-- A bar row (`src/quant/data/bars_loader.py`).  `opn` models the Python
field `open` (a Lean keyword); `dt` is the local session date. -/
structure BarRow where
  ts : ℤ
  symbol_id : ℕ
  opn : ℚ
  high : ℚ
  low : ℚ
  close : ℚ
  volume : ℤ
  dt : ℤ
deriving DecidableEq, Repr

/-- `BarsStore.by_symbol`, modelled as the `dict.get(symbol_id, [])` lookup. -/
structure BarsStore where
  by_symbol : ℕ → List BarRow

/-- Inclusive range filter over one symbol's bars.  `stop` models the Python
parameter `end` (a Lean keyword). -/
def BarsStore.get_between (s : BarsStore) (symbol_id : ℕ)
    (start stop : Option ℤ) : List BarRow :=
  (s.by_symbol symbol_id).filter fun r =>
    (match start with
     | none => true
     | some a => decide (a ≤ r.ts)) &&
    (match stop with
     | none => true
     | some b => decide (r.ts ≤ b))

/-- The two failure modes of `PITDataReader.get_bars`: the `ValueError` of the
no-peek guard and the `RuntimeError` of the dataset-violation guard. -/
inductive PITError where
  | invalidRequest
  | datasetViolation
deriving DecidableEq, Repr

/-- `PITDataReader.get_bars`.  All timestamps are already UTC instants in this
model, so `_ensure_utc` is the identity. -/
def PITDataReader.get_bars (store : BarsStore) (symbol_id : ℕ)
    (start stop : Option ℤ) (asof : ℤ) : Except PITError (List BarRow) :=
  if stop.isSome ∧ asof < stop.getD asof then
    Except.error PITError.invalidRequest
  else if (store.get_between symbol_id start (some (stop.getD asof))).any
      (fun r => decide (asof < r.ts)) then
    Except.error PITError.datasetViolation
  else
    Except.ok (store.get_between symbol_id start (some (stop.getD asof)))

/-! ## Corporate-action adjusters (`src/quant/data/adjusters.py`) -/

structure CorporateAction where
  symbol_id : ℕ
  effective_date : ℤ
  split_ratio : ℚ
  dividend : ℚ
  currency : String
deriving DecidableEq, Repr

structure PriceQty where
  price : ℚ
  qty : ℚ
deriving DecidableEq, Repr

/-- One iteration of the split loop in `apply_actions`; the condition models
Python's `a.split_ratio and a.split_ratio > 0 and a.split_ratio != 1.0`. -/
def applyActionsStep (acc : ℚ × ℚ) (a : CorporateAction) : ℚ × ℚ :=
  if a.split_ratio ≠ 0 ∧ a.split_ratio > 0 ∧ a.split_ratio ≠ 1 then
    (acc.1 / a.split_ratio, acc.2 * a.split_ratio)
  else acc

def apply_actions (price qty : ℚ) (actions : List CorporateAction) : PriceQty :=
  let p := actions.foldl applyActionsStep (price, qty)
  { price := round10 p.1, qty := round10 p.2 }

def dividend_cashflow_on_exdate (shares : ℚ) (actions : List CorporateAction) : ℚ :=
  round10 (actions.foldl
    (fun total a => if a.dividend ≠ 0 then total + shares * a.dividend else total) 0)

/-! ## Portfolio and positions (`src/quant/engine/portfolio.py`) -/

structure Position where
  symbol_id : ℕ
  currency : String
  quantity : ℚ := 0
  average_price : ℚ := 0
deriving DecidableEq, Repr

/-- Model of Python `str.upper` (ASCII), used for the side comparison in
`Portfolio.apply_fill`. -/
def strUpper (s : String) : String := ⟨s.data.map Char.toUpper⟩

/-- `Position.apply_fill`; returns the updated position and the realized
P&L (the Python method returns `(self.quantity, realized_pnl)` after mutating
`self`; the new quantity is recoverable from the returned position). -/
def Position.apply_fill (p : Position) (qty_delta price : ℚ) : Position × ℚ :=
  if qty_delta = 0 then (p, 0)
  else if p.quantity = 0 ∨ (p.quantity > 0 ∧ qty_delta > 0) ∨
      (p.quantity < 0 ∧ qty_delta < 0) then
    let new_qty := p.quantity + qty_delta
    let avg :=
      if new_qty ≠ 0 then (p.average_price * p.quantity + price * qty_delta) / new_qty
      else 0
    ({ p with quantity := new_qty, average_price := avg }, 0)
  else
    let close_qty := min |qty_delta| |p.quantity|
    let sign : ℚ := if p.quantity > 0 then 1 else -1
    let realized_pnl := (price - p.average_price) * (close_qty * sign)
    let new_qty := p.quantity + qty_delta
    let avg :=
      if new_qty = 0 then 0
      else if (new_qty > 0 ∧ qty_delta > 0) ∨ (new_qty < 0 ∧ qty_delta < 0) then
        (p.average_price + price) / 2
      else price
    ({ p with quantity := new_qty, average_price := avg }, realized_pnl)

def Position.apply_corporate_actions (p : Position) (actions : List CorporateAction) :
    Position :=
  if actions = [] ∨ p.quantity = 0 then p
  else
    let adjusted := apply_actions p.average_price p.quantity actions
    { p with average_price := adjusted.price, quantity := adjusted.qty }

/-- The portfolio ledger.  The Python dictionaries are modelled as total
functions: `cash_by_ccy` with default `0.0` (the `get_cash` default),
`positions` as an `Option`-valued lookup and `processed_actions` with default
`[]` (the `setdefault` default). -/
structure Portfolio where
  base_currency : String := "EUR"
  cash_by_ccy : String → ℚ := fun _ => 0
  positions : ℕ → Option Position := fun _ => none
  processed_actions : ℕ → List ℤ := fun _ => []

def Portfolio.get_cash (p : Portfolio) (currency : String) : ℚ :=
  p.cash_by_ccy currency

def Portfolio.deposit (p : Portfolio) (amount : ℚ) (currency : String) : Portfolio :=
  { p with cash_by_ccy :=
      Function.update p.cash_by_ccy currency (p.get_cash currency + amount) }

def Portfolio.withdraw (p : Portfolio) (amount : ℚ) (currency : String) : Portfolio :=
  { p with cash_by_ccy :=
      Function.update p.cash_by_ccy currency (p.get_cash currency - amount) }

def Portfolio.get_or_create_position (p : Portfolio) (symbol_id : ℕ)
    (currency : String) : Position × Portfolio :=
  match p.positions symbol_id with
  | some pos => (pos, p)
  | none =>
    let pos : Position := { symbol_id := symbol_id, currency := currency }
    (pos, { p with positions := Function.update p.positions symbol_id (some pos) })

def Portfolio.apply_fill (p : Portfolio) (symbol_id : ℕ) (currency : String)
    (side : String) (qty price : ℚ) : Portfolio × ℚ :=
  let pp := p.get_or_create_position symbol_id currency
  let qty_signed := if strUpper side = "BUY" then qty else -qty
  let fr := pp.1.apply_fill qty_signed price
  let p2 := { pp.2 with positions := Function.update pp.2.positions symbol_id (some fr.1) }
  let notional := qty * price
  let p3 :=
    if strUpper side = "BUY" then p2.withdraw notional currency
    else p2.deposit notional currency
  (p3, fr.2)

def Portfolio.apply_transaction_cost (p : Portfolio) (currency : String) (cost : ℚ) :
    Portfolio :=
  if cost = 0 then p else p.withdraw cost currency

/-- One iteration of the selection loop in `process_actions_for_symbol`: the
accumulator is `(to_apply, div_actions, processed)`. -/
def processActionsStep (asof : ℤ)
    (acc : List CorporateAction × List CorporateAction × List ℤ)
    (a : CorporateAction) : List CorporateAction × List CorporateAction × List ℤ :=
  if a.effective_date ≤ asof ∧ a.effective_date ∉ acc.2.2 then
    (acc.1 ++ [a],
     if a.dividend ≠ 0 then acc.2.1 ++ [a] else acc.2.1,
     acc.2.2 ++ [a.effective_date])
  else acc

def Portfolio.process_actions_for_symbol (p : Portfolio) (symbol_id : ℕ)
    (actions : List CorporateAction) (asof : ℤ) : Portfolio × ℚ :=
  match p.positions symbol_id with
  | none => (p, 0)
  | some pos =>
    if pos.quantity = 0 then (p, 0)
    else
      let acc := actions.foldl (processActionsStep asof) ([], [], p.processed_actions symbol_id)
      if acc.1 = [] then (p, 0)
      else
        let pos2 := pos.apply_corporate_actions acc.1
        let p1 := { p with
                    positions := Function.update p.positions symbol_id (some pos2),
                    processed_actions := Function.update p.processed_actions symbol_id acc.2.2 }
        let div_cash := dividend_cashflow_on_exdate pos2.quantity acc.2.1
        let p2 := if div_cash ≠ 0 then p1.deposit div_cash pos.currency else p1
        (p2, div_cash)

/-! ## Fold generator (`src/quant/research/validation.py`)

The generators operate over `times`, the sorted list of distinct bar
timestamps produced by `_unique_times_between`.  The index arithmetic of the
source is embedded in `purgedFoldIdx`/`walkForwardAux` over `n = len(times)`,
and the returned `FoldSpec`s are obtained by reading the computed indices out
of `times` (`timeAt`, which models Python list indexing including `times[-1]`).
-/

/-- A fold with index-level ranges (positions into the timeline). -/
structure FoldIdx where
  train_ranges : List (ℤ × ℤ)
  val_range : ℤ × ℤ
deriving DecidableEq, Repr

/-- A fold of actual timestamps, the source's `FoldSpec`. -/
structure FoldSpec where
  train_ranges : List (ℤ × ℤ)
  val_range : ℤ × ℤ
deriving DecidableEq, Repr

/-- `embargo = max(0, int(len(times) * max(0.0, min(embargo_fraction, 0.5))))`. -/
def embargoCount (n : ℕ) (e : ℚ) : ℕ :=
  (⌊(n : ℚ) * max 0 (min e (1/2))⌋).toNat

/-- Python list indexing `times[j]` for the index values the generators use
(`-1` reads the last element). -/
def timeAt (times : List ℤ) (j : ℤ) : ℤ :=
  if 0 ≤ j then times.getD j.toNat 0
  else times.getD (times.length - (-j).toNat) 0

/-- The body of the `for i in range(n_splits)` loop in
`make_purged_kfold_folds`, at index level. -/
def purgedFoldIdx (n k fold_size embargo i : ℕ) : FoldIdx :=
  let val_start_idx : ℕ := i * fold_size
  let val_end_idx : ℕ :=
    if i = k - 1 then n - 1 else min (n - 1) ((i + 1) * fold_size - 1)
  let left_train_end_idx : ℤ := max (-1) ((val_start_idx : ℤ) - 1 - embargo)
  let right_train_start_idx : ℤ := min (n : ℤ) ((val_end_idx : ℤ) + 1 + embargo)
  let left : List (ℤ × ℤ) :=
    if 0 ≤ left_train_end_idx then [(0, left_train_end_idx)] else []
  let right : List (ℤ × ℤ) :=
    if right_train_start_idx ≤ (n : ℤ) - 1 then [(right_train_start_idx, (n : ℤ) - 1)]
    else []
  { train_ranges := left ++ right,
    val_range := ((val_start_idx : ℤ), (val_end_idx : ℤ)) }

def make_purged_kfold_folds_idx (n k : ℕ) (e : ℚ) : Except String (List FoldIdx) :=
  if k ≤ 1 then Except.error "n_splits must be >= 2"
  else if n < k then Except.error "Not enough timesteps for the requested number of splits"
  else Except.ok <|
    (List.range k).map (purgedFoldIdx n k (max 1 (n / k)) (embargoCount n e))

def mapFoldIdx (times : List ℤ) (f : FoldIdx) : FoldSpec :=
  { train_ranges := f.train_ranges.map fun r => (timeAt times r.1, timeAt times r.2),
    val_range := (timeAt times f.val_range.1, timeAt times f.val_range.2) }

/-- `make_purged_kfold_folds`, over the sorted distinct timeline `times`. -/
def make_purged_kfold_folds (times : List ℤ) (k : ℕ) (e : ℚ) :
    Except String (List FoldSpec) :=
  (make_purged_kfold_folds_idx times.length k e).map (List.map (mapFoldIdx times))

/-- The `while True` loop of `make_walk_forward_folds` at index level; `fuel`
bounds the number of iterations (the claims quantify over every produced
fold, so the bound only ever removes folds, and `n + 1` iterations suffice
for `step ≥ 1`). -/
def walkForwardAux (n train_window test_window step embargo : ℕ) :
    ℕ → ℕ → List FoldIdx
  | 0, _ => []
  | fuel + 1, i =>
    let train_start_idx := i
    let train_end_idx := i + train_window - 1
    let val_start_idx := train_end_idx + 1 + embargo
    let val_end_idx := val_start_idx + test_window - 1
    if n ≤ val_end_idx then []
    else
      { train_ranges := [((train_start_idx : ℤ), (train_end_idx : ℤ))],
        val_range := ((val_start_idx : ℤ), (val_end_idx : ℤ)) } ::
        walkForwardAux n train_window test_window step embargo fuel (i + step)

def make_walk_forward_folds_idx (n train_window test_window : ℕ)
    (step? : Option ℕ) (e : ℚ) : Except String (List FoldIdx) :=
  if train_window = 0 ∨ test_window = 0 then
    Except.error "train_window and test_window must be > 0 (in number of timesteps)"
  else
    let step : ℕ :=
      match step? with
      | some s => if 0 < s then s else test_window
      | none => test_window
    Except.ok (walkForwardAux n train_window test_window step (embargoCount n e) (n + 1) 0)

/-- `make_walk_forward_folds`, over the sorted distinct timeline `times`. -/
def make_walk_forward_folds (times : List ℤ) (train_window test_window : ℕ)
    (step? : Option ℕ) (e : ℚ) : Except String (List FoldSpec) :=
  (make_walk_forward_folds_idx times.length train_window test_window step? e).map
    (List.map (mapFoldIdx times))

/-- A small concrete store: symbol 1 has bars at times 1, 2 and 3. -/
def sampleBarsStore : BarsStore :=
  { by_symbol := fun sym =>
      if sym = 1 then
        [{ ts := 1, symbol_id := 1, opn := 10, high := 11, low := 9, close := 10,
           volume := 100, dt := 1 },
         { ts := 2, symbol_id := 1, opn := 10, high := 12, low := 9, close := 11,
           volume := 100, dt := 2 },
         { ts := 3, symbol_id := 1, opn := 11, high := 13, low := 10, close := 12,
           volume := 100, dt := 3 }]
      else [] }

/-- A simulator built with all constructor defaults (no cost calculator, no
ADV or sigma entries, cap fraction 0.1, alpha 0.1, default TOD multipliers). -/
def defaultSim : ExecutionSimulator := {}

def sampleQuote : Quote := { bid := 99, ask := 101 }

/-- FOK MARKET BUY for 100 units. -/
def sampleFokMarketOrder : Order :=
  { id := "f", symbol_id := 1, side := OrderSide.BUY, quantity := 100,
    tif := TimeInForce.FOK }

/-- LIMIT BUY for 10 units with a limit price of 90, below the quote's bid. -/
def sampleLimitBuyOrder : Order :=
  { id := "l", symbol_id := 1, side := OrderSide.BUY, quantity := 10,
    type := OrderType.LIMIT, limit_price := some 90 }

/-- Plain MARKET DAY BUY for 10 units. -/
def sampleMarketBuyOrder : Order :=
  { id := "m", symbol_id := 1, side := OrderSide.BUY, quantity := 10 }

/-- The actions `process_actions_for_symbol` applies in one call: effective
at or before `asof` and whose date is not yet in the symbol's processed set
(the claim's "not-yet-processed action with `effective_date ≤ asof`"). -/
def eligibleActions (p : Portfolio) (symbol_id : ℕ) (actions : List CorporateAction)
    (asof : ℤ) : List CorporateAction :=
  actions.filter fun a =>
    decide (a.effective_date ≤ asof ∧ a.effective_date ∉ p.processed_actions symbol_id)

/-- A 200-share EUR position at average price 10. -/
def divPosition : Position :=
  { symbol_id := 1, currency := "EUR", quantity := 200, average_price := 10 }

/-- A portfolio holding only `divPosition`. -/
def divPortfolio : Portfolio :=
  { positions := fun s => if s = 1 then some divPosition else none }

/-- A 0.5-per-share cash dividend effective at time 0 (no split). -/
def divAction : CorporateAction :=
  { symbol_id := 1, effective_date := 0, split_ratio := 1, dividend := 1/2,
    currency := "EUR" }

/-- The invariant claimed for positions: a flat position carries no cost
basis. -/
def posInvariant (p : Position) : Prop := p.quantity = 0 → p.average_price = 0

/-- A portfolio with all constructor defaults (EUR base, no cash, no
positions, no processed actions). -/
def emptyPortfolio : Portfolio := {}

/-- A flat EUR position. -/
def flatPosition : Position := { symbol_id := 1, currency := "EUR" }

/-- A position holding `1e-11` units at an average price of 100. -/
def tinyPosition : Position :=
  { symbol_id := 1, currency := "EUR", quantity := 1 / 10 ^ 11, average_price := 100 }

/-- A 2-for-1 split effective at time 0. -/
def splitAction2 : CorporateAction :=
  { symbol_id := 1, effective_date := 0, split_ratio := 2, dividend := 0, currency := "EUR" }

/-- A sorted timeline of 12 distinct bar timestamps. -/
def times12 : List ℤ := [0, 1, 2, 3, 4, 5, 6, 7, 8, 9, 10, 11]

/-! # Theorems -/

/-- Every bar returned by `get_between` with an upper bound is timestamped at
or before that bound. -/
theorem get_between_ts_le (s : BarsStore) (symbol_id : ℕ) (start : Option ℤ)
    (e : ℤ) : ∀ b ∈ s.get_between symbol_id start (some e), b.ts ≤ e := by
  intro b hb
  rw [BarsStore.get_between, List.mem_filter] at hb
  have h2 := (Bool.and_eq_true _ _).mp hb.2 |>.2
  exact of_decide_eq_true h2

/-- C1: `get_bars` errors exactly on `end > asof` (after UTC normalisation);
with `end = asof` or `end` omitted it succeeds and every returned bar is
timestamped at or before `asof`. -/
theorem pit_no_peek_guard (store : BarsStore) (symbol_id : ℕ) (start : Option ℤ)
    (asof : ℤ) :
    (∀ e : ℤ, asof < e →
      PITDataReader.get_bars store symbol_id start (some e) asof =
        Except.error PITError.invalidRequest) ∧
    (∀ stop : Option ℤ, stop = none ∨ stop = some asof →
      ∃ bars, PITDataReader.get_bars store symbol_id start stop asof = Except.ok bars ∧
        ∀ b ∈ bars, b.ts ≤ asof) := by
  have hany : ((store.get_between symbol_id start (some asof)).any
      (fun r => decide (asof < r.ts))) = false := by
    rw [List.any_eq_false]
    intro r hr
    simp only [decide_eq_true_eq, not_lt]
    exact get_between_ts_le store symbol_id start asof r hr
  constructor
  · intro e he
    rw [PITDataReader.get_bars, if_pos]
    exact ⟨rfl, he⟩
  · rintro stop (rfl | rfl) <;>
      exact ⟨store.get_between symbol_id start (some asof),
        by
          rw [PITDataReader.get_bars, if_neg (by simp)]
          simp only [Option.getD_none, Option.getD_some]
          rw [if_neg (by simp [hany])],
        fun b hb => get_between_ts_le store symbol_id start asof b hb⟩

/-- Closed witness for `pit_no_peek_guard` on `sampleBarsStore` at `asof = 2`. -/
theorem pit_no_peek_guard_witness :
    ((2:ℤ) < 3 ∧
      PITDataReader.get_bars sampleBarsStore 1 none (some 3) 2 =
        Except.error PITError.invalidRequest) ∧
    (∃ bars, PITDataReader.get_bars sampleBarsStore 1 none none 2 = Except.ok bars ∧
      ∀ b ∈ bars, b.ts ≤ 2) :=
  ⟨⟨by decide, (pit_no_peek_guard sampleBarsStore 1 none 2).1 3 (by decide)⟩,
    (pit_no_peek_guard sampleBarsStore 1 none 2).2 none (Or.inl rfl)⟩

theorem roundHalfEven_intCast (k : ℤ) : roundHalfEven (k : ℚ) = k := by
  simp [roundHalfEven]

theorem abs_roundHalfEven_sub_le (x : ℚ) : |(roundHalfEven x : ℚ) - x| ≤ 1/2 := by
  unfold roundHalfEven
  have hfl : (⌊x⌋ : ℚ) ≤ x := Int.floor_le x
  have hfl2 : x < (⌊x⌋ : ℚ) + 1 := Int.lt_floor_add_one x
  by_cases h1 : x - (⌊x⌋ : ℚ) < 1/2
  · simp only [if_pos h1]
    rw [abs_le]
    constructor <;> linarith
  · simp only [if_neg h1]
    by_cases h2 : (1:ℚ)/2 < x - (⌊x⌋ : ℚ)
    · simp only [if_pos h2]
      rw [abs_le]
      push_cast
      constructor <;> linarith
    · simp only [if_neg h2]
      have heq : x - (⌊x⌋ : ℚ) = 1/2 := le_antisymm (not_lt.mp h2) (not_lt.mp h1)
      by_cases h3 : Even ⌊x⌋
      · simp only [if_pos h3]
        rw [abs_le]
        constructor <;> linarith
      · simp only [if_neg h3]
        rw [abs_le]
        push_cast
        constructor <;> linarith

theorem abs_round10_sub_le (x : ℚ) : |round10 x - x| ≤ 1 / (2 * 10 ^ 10) := by
  have key : round10 x - x = ((roundHalfEven (x * 10 ^ 10) : ℚ) - x * 10 ^ 10) / 10 ^ 10 := by
    unfold round10; ring
  rw [key, abs_div, abs_of_pos (by norm_num : (0:ℚ) < 10 ^ 10)]
  calc |(roundHalfEven (x * 10 ^ 10) : ℚ) - x * 10 ^ 10| / 10 ^ 10
      ≤ (1/2) / 10 ^ 10 := by gcongr; exact abs_roundHalfEven_sub_le _
    _ = 1 / (2 * 10 ^ 10) := by norm_num

/-- C4: FOK orders in a non-terminal state that are not fully filled end the
cycle CANCELED with `filled_quantity` rolled back to `0`. -/
theorem fok_end_of_cycle_rolls_back (o : Order) (liq : ℤ)
    (htif : o.tif = TimeInForce.FOK)
    (hstate : o.state = OrderState.NEW ∨ o.state = OrderState.WORKING ∨
      o.state = OrderState.PARTIALLY_FILLED)
    (hpart : o.filled_quantity < o.quantity) :
    (o.handle_end_of_cycle liq).state = OrderState.CANCELED ∧
      (o.handle_end_of_cycle liq).filled_quantity = 0 := by
  rcases hstate with h | h | h <;>
    simp [Order.handle_end_of_cycle, Order.cancel, htif, h, hpart]

/-- Closed witness for `fok_end_of_cycle_rolls_back`. -/
theorem fok_end_of_cycle_rolls_back_witness :
    (sampleFokOrder.handle_end_of_cycle 60).state = OrderState.CANCELED ∧
      (sampleFokOrder.handle_end_of_cycle 60).filled_quantity = 0 :=
  fok_end_of_cycle_rolls_back sampleFokOrder 60 rfl (Or.inr (Or.inr rfl)) (by decide)

/-- C5: IOC orders in a non-terminal state that are not fully filled end the
cycle CANCELED, keeping their `filled_quantity`. -/
theorem ioc_end_of_cycle_keeps_fills (o : Order) (liq : ℤ)
    (htif : o.tif = TimeInForce.IOC)
    (hstate : o.state = OrderState.NEW ∨ o.state = OrderState.WORKING ∨
      o.state = OrderState.PARTIALLY_FILLED)
    (hpart : o.filled_quantity < o.quantity) :
    (o.handle_end_of_cycle liq).state = OrderState.CANCELED ∧
      (o.handle_end_of_cycle liq).filled_quantity = o.filled_quantity := by
  rcases hstate with h | h | h <;>
    simp [Order.handle_end_of_cycle, Order.cancel, htif, h, hpart]

/-- Closed witness for `ioc_end_of_cycle_keeps_fills`. -/
theorem ioc_end_of_cycle_keeps_fills_witness :
    (sampleIocOrder.handle_end_of_cycle 60).state = OrderState.CANCELED ∧
      (sampleIocOrder.handle_end_of_cycle 60).filled_quantity =
        sampleIocOrder.filled_quantity :=
  ioc_end_of_cycle_keeps_fills sampleIocOrder 60 rfl (Or.inr (Or.inr rfl)) (by decide)

/-- C2 (the code at the claim's failing input): a FOK order for 100 units
with available liquidity 60 and fillable cap `min(60, 0.1·60) = 6 < 100` is
nevertheless filled in full by `simulate`.  Because `max_fillable` is set to
`order.quantity` itself when `tif == FOK`, the fill-or-kill comparison
`max_fillable < order.quantity` can never hold, contradicting the source's
own comment ("FOK: only fill if full qty available under constraints"). -/
theorem fok_cap_bypass_fills_fully :
    min ((60:ℚ)) (defaultSim.adv_cap_fraction * 60) < 100 ∧
    defaultSim.simulate sampleFokMarketOrder sampleQuote "US" 60 none =
      Except.ok ([{ price := 101, quantity := 100 }], 0) := by
  constructor
  · norm_num [defaultSim, min_def]
  · simp +decide [ExecutionSimulator.simulate, simTargetPrice, defaultSim,
      sampleFokMarketOrder, sampleQuote, round10, roundHalfEven, Quote.mid, Quote.spread]
    norm_num [max_def, min_def, Int.fract]

/-- C3 counterexample: a LIMIT BUY with limit price 90 against the quote
`[99, 101]` produces a fill at 99, strictly above its limit price (the
re-clamp into `[bid, ask]` overrides the limit adjustment when the limit is
below the bid). -/
theorem limit_buy_fills_above_limit :
    sampleLimitBuyOrder.limit_price = some 90 ∧
    defaultSim.simulate sampleLimitBuyOrder sampleQuote "US" 100 none =
      Except.ok ([{ price := 99, quantity := 10 }], 0) ∧
    ¬ ((99:ℚ) ≤ 90) := by
  refine ⟨rfl, ?_, by norm_num⟩
  simp +decide [ExecutionSimulator.simulate, simTargetPrice, limitClamp, defaultSim,
    sampleLimitBuyOrder, sampleQuote, round10, roundHalfEven, Quote.mid, Quote.spread]
  norm_num [max_def, min_def, Int.fract]

/-- `limitClamp` always lands inside `[bid, ask]` for a coherent quote. -/
theorem limitClamp_bounds (side : OrderSide) (lp : ℚ) (quote : Quote) (t1 : ℚ)
    (hba : quote.bid ≤ quote.ask) :
    quote.bid ≤ limitClamp side lp quote t1 ∧ limitClamp side lp quote t1 ≤ quote.ask := by
  simp only [limitClamp]
  exact ⟨le_min (le_max_right _ _) hba, min_le_right _ _⟩

/-- The BUY limit adjustment never lands above `max lp bid`. -/
theorem limitClamp_buy_le (lp : ℚ) (quote : Quote) (t1 : ℚ) :
    limitClamp OrderSide.BUY lp quote t1 ≤ max lp quote.bid := by
  simp only [limitClamp, show (OrderSide.BUY = OrderSide.BUY) = True from by simp,
    show (OrderSide.BUY = OrderSide.SELL) = False from by simp, true_and, false_and,
    if_false, if_true]
  split_ifs with h
  · exact min_le_left _ _
  · push_neg at h
    exact le_trans (min_le_left _ _) (max_le_max h le_rfl)

/-- The SELL limit adjustment never lands below `min lp ask`. -/
theorem limitClamp_sell_ge (lp : ℚ) (quote : Quote) (t1 : ℚ) :
    min lp quote.ask ≤ limitClamp OrderSide.SELL lp quote t1 := by
  simp only [limitClamp, show (OrderSide.SELL = OrderSide.SELL) = True from by simp,
    show (OrderSide.SELL = OrderSide.BUY) = False from by simp, true_and, false_and,
    if_false, if_true]
  split_ifs with h
  · exact min_le_min (le_max_left _ _) le_rfl
  · push_neg at h
    exact le_trans (min_le_min h le_rfl) (min_le_min (le_max_left _ _) le_rfl)

/-- The target price is always clamped into `[bid, ask]` (for a coherent
quote with `bid ≤ ask`). -/
theorem simTargetPrice_bounds (sim : ExecutionSimulator) (order : Order)
    (quote : Quote) (venue : String) (ts : Option ℤ) (mf adv : ℤ)
    (hba : quote.bid ≤ quote.ask) :
    quote.bid ≤ simTargetPrice sim order quote venue ts mf adv ∧
      simTargetPrice sim order quote venue ts mf adv ≤ quote.ask := by
  simp only [simTargetPrice]
  split
  · exact limitClamp_bounds _ _ _ _ hba
  · exact ⟨le_min (le_max_right _ _) hba, min_le_right _ _⟩

/-- For a LIMIT BUY the target price never exceeds `max lp bid` (so it never
exceeds the limit itself whenever the limit is at or above the bid). -/
theorem simTargetPrice_limit_buy_le (sim : ExecutionSimulator) (order : Order)
    (quote : Quote) (venue : String) (ts : Option ℤ) (mf adv : ℤ)
    (htype : order.type = OrderType.LIMIT) (hside : order.side = OrderSide.BUY)
    (lp : ℚ) (hlp : order.limit_price = some lp) :
    simTargetPrice sim order quote venue ts mf adv ≤ max lp quote.bid := by
  simp only [simTargetPrice, htype, hside, hlp, Option.getD_some, if_pos rfl]
  exact limitClamp_buy_le lp quote _

/-- For a LIMIT SELL the target price never drops below `min lp ask`. -/
theorem simTargetPrice_limit_sell_ge (sim : ExecutionSimulator) (order : Order)
    (quote : Quote) (venue : String) (ts : Option ℤ) (mf adv : ℤ)
    (htype : order.type = OrderType.LIMIT) (hside : order.side = OrderSide.SELL)
    (lp : ℚ) (hlp : order.limit_price = some lp) :
    min lp quote.ask ≤ simTargetPrice sim order quote venue ts mf adv := by
  simp only [simTargetPrice, htype, hside, hlp, Option.getD_some, if_pos rfl]
  exact limitClamp_sell_ge lp quote _

/-- Every fill produced by `simulate` is priced at `round10` of the computed
target price. -/
theorem simulate_fill_price_form (sim : ExecutionSimulator) (order : Order)
    (quote : Quote) (venue : String) (liq : ℤ) (ts : Option ℤ)
    (fills : List Fill) (cost : ℚ)
    (h : sim.simulate order quote venue liq ts = Except.ok (fills, cost)) :
    ∀ f ∈ fills, ∃ mf adv : ℤ,
      f.price = round10 (simTargetPrice sim order quote venue ts mf adv) := by
  intro f hf
  simp only [ExecutionSimulator.simulate] at h
  split_ifs at h <;>
  first
  | exact Except.noConfusion h
  | · injection h with h3
      rw [Prod.mk.injEq] at h3
      obtain ⟨rfl, -⟩ := h3
      first
      | exact absurd hf (List.not_mem_nil f)
      | · rw [List.mem_singleton] at hf
          subst hf
          exact ⟨_, _, rfl⟩

/-- C3 (amended): with a coherent quote (`bid ≤ ask`), every produced fill
price is the 1e-10 rounding of a target price lying inside `[bid, ask]` —
hence within half a grid step of the band — and a LIMIT order's fill price
respects `max(limit, bid)` for BUY and `min(limit, ask)` for SELL up to the
same half step (so the exact limit bound holds whenever the limit is
marketable, i.e. BUY limit at/above bid, SELL limit at/below ask). -/
theorem execution_price_bounds (sim : ExecutionSimulator) (order : Order)
    (quote : Quote) (venue : String) (liq : ℤ) (ts : Option ℤ)
    (fills : List Fill) (cost : ℚ)
    (hba : quote.bid ≤ quote.ask)
    (h : sim.simulate order quote venue liq ts = Except.ok (fills, cost)) :
    ∀ f ∈ fills,
      quote.bid - 1 / (2 * 10 ^ 10) ≤ f.price ∧
      f.price ≤ quote.ask + 1 / (2 * 10 ^ 10) ∧
      (order.type = OrderType.LIMIT → ∀ lp, order.limit_price = some lp →
        (order.side = OrderSide.BUY → f.price ≤ max lp quote.bid + 1 / (2 * 10 ^ 10)) ∧
        (order.side = OrderSide.SELL → min lp quote.ask - 1 / (2 * 10 ^ 10) ≤ f.price)) := by
  intro f hf
  obtain ⟨mf, adv, hp⟩ :=
    simulate_fill_price_form sim order quote venue liq ts fills cost h f hf
  have hb := simTargetPrice_bounds sim order quote venue ts mf adv hba
  have hr := abs_round10_sub_le (simTargetPrice sim order quote venue ts mf adv)
  rw [abs_le] at hr
  refine ⟨?_, ?_, ?_⟩
  · rw [hp]; linarith [hb.1, hr.1]
  · rw [hp]; linarith [hb.2, hr.2]
  · intro htype lp hlp
    constructor
    · intro hside
      have hle := simTargetPrice_limit_buy_le sim order quote venue ts mf adv htype hside lp hlp
      rw [hp]; linarith [hr.2]
    · intro hside
      have hge := simTargetPrice_limit_sell_ge sim order quote venue ts mf adv htype hside lp hlp
      rw [hp]; linarith [hr.1]

/-- Closed witness for `execution_price_bounds` at the LIMIT BUY sample. -/
theorem execution_price_bounds_witness :
    sampleQuote.bid ≤ sampleQuote.ask ∧
    ∀ f ∈ [({ price := 99, quantity := 10 } : Fill)],
      sampleQuote.bid - 1 / (2 * 10 ^ 10) ≤ f.price ∧
      f.price ≤ sampleQuote.ask + 1 / (2 * 10 ^ 10) ∧
      (sampleLimitBuyOrder.type = OrderType.LIMIT →
        ∀ lp, sampleLimitBuyOrder.limit_price = some lp →
        (sampleLimitBuyOrder.side = OrderSide.BUY →
          f.price ≤ max lp sampleQuote.bid + 1 / (2 * 10 ^ 10)) ∧
        (sampleLimitBuyOrder.side = OrderSide.SELL →
          min lp sampleQuote.ask - 1 / (2 * 10 ^ 10) ≤ f.price)) :=
  ⟨by norm_num [sampleQuote],
    execution_price_bounds defaultSim sampleLimitBuyOrder sampleQuote "US" 100 none
      [{ price := 99, quantity := 10 }] 0 (by norm_num [sampleQuote])
      (by
        simp +decide [ExecutionSimulator.simulate, simTargetPrice, limitClamp, defaultSim,
          sampleLimitBuyOrder, sampleQuote, round10, roundHalfEven, Quote.mid, Quote.spread]
        norm_num [max_def, min_def, Int.fract])⟩

/-- `round10` is a projection: rounding an already-rounded amount changes
nothing. -/
theorem round10_round10 (x : ℚ) : round10 (round10 x) = round10 x := by
  unfold round10
  rw [div_mul_cancel₀ ((roundHalfEven (x * 10 ^ 10) : ℚ)) (by norm_num : ((10:ℚ) ^ 10) ≠ 0),
    roundHalfEven_intCast]

/-- C9 counterexample: depositing `1e-11` EUR into an empty portfolio stores
exactly `1e-11`, which is *not* equal to its own 1e-10 rounding — `deposit`
performs no rounding. -/
theorem deposit_not_rounded :
    (emptyPortfolio.deposit (1 / 10 ^ 11) "EUR").cash_by_ccy "EUR" = 1 / 10 ^ 11 ∧
    round10 ((emptyPortfolio.deposit (1 / 10 ^ 11) "EUR").cash_by_ccy "EUR") ≠
      (emptyPortfolio.deposit (1 / 10 ^ 11) "EUR").cash_by_ccy "EUR" := by
  have h : (emptyPortfolio.deposit (1 / 10 ^ 11) "EUR").cash_by_ccy "EUR" = 1 / 10 ^ 11 := by
    simp [Portfolio.deposit, Portfolio.get_cash, emptyPortfolio, Function.update]
  refine ⟨h, ?_⟩
  rw [h]
  norm_num [round10, roundHalfEven]

/-- C9 (amended): cash mutations (`deposit`, `withdraw`,
`apply_transaction_cost`, the trade-notional cash move of
`Portfolio.apply_fill`) store exact, unrounded sums; the 1e-10 rounding
happens in `apply_actions` (both adjusted price and quantity) and in
`dividend_cashflow_on_exdate` (whose results are fixed points of
`round10`). -/
theorem cash_rounding_amended :
    (∀ (p : Portfolio) (amount : ℚ) (ccy : String),
      (p.deposit amount ccy).cash_by_ccy ccy = p.cash_by_ccy ccy + amount) ∧
    (∀ (p : Portfolio) (amount : ℚ) (ccy : String),
      (p.withdraw amount ccy).cash_by_ccy ccy = p.cash_by_ccy ccy - amount) ∧
    (∀ (p : Portfolio) (ccy : String) (cost : ℚ),
      (p.apply_transaction_cost ccy cost).cash_by_ccy ccy = p.cash_by_ccy ccy - cost) ∧
    (∀ (p : Portfolio) (symbol_id : ℕ) (ccy side : String) (qty price : ℚ),
      strUpper side = "BUY" →
      (p.apply_fill symbol_id ccy side qty price).1.cash_by_ccy ccy =
        p.cash_by_ccy ccy - qty * price) ∧
    (∀ (shares : ℚ) (actions : List CorporateAction),
      round10 (dividend_cashflow_on_exdate shares actions) =
        dividend_cashflow_on_exdate shares actions) ∧
    (∀ (price qty : ℚ) (actions : List CorporateAction),
      round10 (apply_actions price qty actions).price =
          (apply_actions price qty actions).price ∧
        round10 (apply_actions price qty actions).qty =
          (apply_actions price qty actions).qty) := by
  have hget : ∀ (p : Portfolio) (symbol_id : ℕ) (ccy : String),
      (p.get_or_create_position symbol_id ccy).2.cash_by_ccy = p.cash_by_ccy := by
    intro p symbol_id ccy
    unfold Portfolio.get_or_create_position
    split <;> rfl
  refine ⟨?_, ?_, ?_, ?_, ?_, ?_⟩
  · intro p amount ccy
    simp [Portfolio.deposit, Portfolio.get_cash, Function.update]
  · intro p amount ccy
    simp [Portfolio.withdraw, Portfolio.get_cash, Function.update]
  · intro p ccy cost
    unfold Portfolio.apply_transaction_cost
    split
    · rename_i hc
      rw [hc, sub_zero]
    · simp [Portfolio.withdraw, Portfolio.get_cash, Function.update]
  · intro p symbol_id ccy side qty price hside
    simp only [Portfolio.apply_fill, hside, if_pos rfl]
    simp [Portfolio.withdraw, Portfolio.get_cash, Function.update, hget]
  · intro shares actions
    exact round10_round10 _
  · intro price qty actions
    exact ⟨round10_round10 _, round10_round10 _⟩

/-- Closed witness for `cash_rounding_amended` at concrete inputs. -/
theorem cash_rounding_amended_witness :
    (emptyPortfolio.deposit 5 "EUR").cash_by_ccy "EUR" =
        emptyPortfolio.cash_by_ccy "EUR" + 5 ∧
    (emptyPortfolio.apply_fill 1 "EUR" "BUY" 3 7).1.cash_by_ccy "EUR" =
        emptyPortfolio.cash_by_ccy "EUR" - 3 * 7 ∧
    round10 (dividend_cashflow_on_exdate 200 [splitAction2]) =
        dividend_cashflow_on_exdate 200 [splitAction2] :=
  ⟨cash_rounding_amended.1 emptyPortfolio 5 "EUR",
    cash_rounding_amended.2.2.2.1 emptyPortfolio 1 "EUR" "BUY" 3 7 (by decide),
    cash_rounding_amended.2.2.2.2.1 200 [splitAction2]⟩

/-- C10 counterexample: a position of `1e-11` units at average price 100
satisfies the invariant, but a 2-for-1 split rounds the doubled quantity
(`2e-11`) to `0` while setting the average price to `50` — leaving a "flat"
position with a nonzero cost basis. -/
theorem split_rounds_tiny_quantity_to_zero :
    posInvariant tinyPosition ∧
    (tinyPosition.apply_corporate_actions [splitAction2]).quantity = 0 ∧
    (tinyPosition.apply_corporate_actions [splitAction2]).average_price = 50 := by
  refine ⟨fun h => absurd h (by norm_num [tinyPosition]), ?_, ?_⟩ <;>
    norm_num [tinyPosition, Position.apply_corporate_actions, apply_actions,
      applyActionsStep, splitAction2, round10, roundHalfEven]

/-- C10 (amended): the invariant "flat position has zero average price" is
preserved by every `apply_fill`; corporate actions leave a flat position
untouched; and the only way `apply_corporate_actions` can break the
invariant is the 1e-10 rounding collapsing a nonzero quantity to zero. -/
theorem position_invariant_amended :
    (∀ (p : Position) (qty_delta price : ℚ), posInvariant p →
      posInvariant (p.apply_fill qty_delta price).1) ∧
    (∀ (p : Position) (actions : List CorporateAction), p.quantity = 0 →
      p.apply_corporate_actions actions = p) ∧
    (∀ (p : Position) (actions : List CorporateAction), posInvariant p →
      ¬ posInvariant (p.apply_corporate_actions actions) →
      (p.apply_corporate_actions actions).quantity = 0 ∧ p.quantity ≠ 0) := by
  refine ⟨?_, ?_, ?_⟩
  · intro p qty_delta price hp
    simp only [Position.apply_fill]
    split_ifs <;>
      first
      | exact hp
      | (intro hq; rfl)
      | (intro hq; exact absurd hq (by assumption))
  · intro p actions hq
    unfold Position.apply_corporate_actions
    rw [if_pos (Or.inr hq)]
  · intro p actions hp hnot
    by_cases hq : p.quantity = 0
    · exfalso
      apply hnot
      unfold Position.apply_corporate_actions
      rw [if_pos (Or.inr hq)]
      exact hp
    · refine ⟨?_, hq⟩
      by_cases hq2 : (p.apply_corporate_actions actions).quantity = 0
      · exact hq2
      · exact absurd (fun h0 => absurd h0 hq2) hnot

/-- Closed witness for `position_invariant_amended` at concrete inputs. -/
theorem position_invariant_amended_witness :
    posInvariant (flatPosition.apply_fill 5 10).1 ∧
    flatPosition.apply_corporate_actions [splitAction2] = flatPosition ∧
    ((tinyPosition.apply_corporate_actions [splitAction2]).quantity = 0 ∧
      tinyPosition.quantity ≠ 0) := by
  refine ⟨position_invariant_amended.1 flatPosition 5 10 (fun _ => rfl),
    position_invariant_amended.2.1 flatPosition [splitAction2] rfl,
    position_invariant_amended.2.2 tinyPosition [splitAction2]
      (fun h => absurd h (by norm_num [tinyPosition])) ?hnot⟩
  case hnot =>
    intro hinv
    have h0 : (tinyPosition.apply_corporate_actions [splitAction2]).quantity = 0 := by
      norm_num [tinyPosition, Position.apply_corporate_actions, apply_actions,
        applyActionsStep, splitAction2, round10, roundHalfEven]
    have h50 : (tinyPosition.apply_corporate_actions [splitAction2]).average_price = 50 := by
      norm_num [tinyPosition, Position.apply_corporate_actions, apply_actions,
        applyActionsStep, splitAction2, round10, roundHalfEven]
    have h5 := hinv h0
    rw [h50] at h5
    norm_num at h5

theorem round10_zero : round10 0 = 0 := by
  norm_num [round10, roundHalfEven]

/-- The selection loop of `process_actions_for_symbol` computes, over actions
with pairwise-distinct effective dates, exactly the filter of eligible
actions, its dividend-paying sublist, and the processed list extended by the
eligible dates. -/
theorem processActionsStep_foldl (asof : ℤ) :
    ∀ (actions : List CorporateAction) (ta da : List CorporateAction) (pr : List ℤ),
      (actions.map fun a => a.effective_date).Nodup →
      actions.foldl (processActionsStep asof) (ta, da, pr) =
        (ta ++ actions.filter (fun a =>
            decide (a.effective_date ≤ asof ∧ a.effective_date ∉ pr)),
          da ++ (actions.filter fun a =>
            decide (a.effective_date ≤ asof ∧ a.effective_date ∉ pr)).filter
              (fun a => decide (a.dividend ≠ 0)),
          pr ++ (actions.filter fun a =>
            decide (a.effective_date ≤ asof ∧ a.effective_date ∉ pr)).map
              (fun a => a.effective_date))
  | [], ta, da, pr, _ => by simp
  | a :: rest, ta, da, pr, hnodup => by
    rw [List.map_cons, List.nodup_cons] at hnodup
    obtain ⟨hd, htail⟩ := hnodup
    rw [List.foldl_cons]
    by_cases hc : a.effective_date ≤ asof ∧ a.effective_date ∉ pr
    · have hstep : processActionsStep asof (ta, da, pr) a =
          (ta ++ [a], if a.dividend ≠ 0 then da ++ [a] else da, pr ++ [a.effective_date]) := by
        simp only [processActionsStep]
        rw [if_pos hc]
      rw [hstep, processActionsStep_foldl asof rest _ _ _ htail]
      have hfilter : (rest.filter fun b =>
            decide (b.effective_date ≤ asof ∧ b.effective_date ∉ pr ++ [a.effective_date])) =
          rest.filter fun b =>
            decide (b.effective_date ≤ asof ∧ b.effective_date ∉ pr) := by
        apply List.filter_congr
        intro b hb
        have hbd : b.effective_date ≠ a.effective_date := fun he =>
          hd (he ▸ List.mem_map_of_mem (fun x => x.effective_date) hb)
        simp [List.mem_append, hbd]
      rw [hfilter]
      have hconsf : ((a :: rest).filter fun b =>
            decide (b.effective_date ≤ asof ∧ b.effective_date ∉ pr)) =
          a :: (rest.filter fun b =>
            decide (b.effective_date ≤ asof ∧ b.effective_date ∉ pr)) := by
        exact List.filter_cons_of_pos (decide_eq_true hc)
      rw [hconsf]
      by_cases hdiv : a.dividend ≠ 0
      · rw [if_pos hdiv]
        simp [List.filter_cons, hdiv]
      · rw [if_neg hdiv]
        simp [List.filter_cons, hdiv]
    · have hstep : processActionsStep asof (ta, da, pr) a = (ta, da, pr) := by
        simp only [processActionsStep]
        rw [if_neg hc]
      rw [hstep, processActionsStep_foldl asof rest _ _ _ htail]
      have hconsf : ((a :: rest).filter fun b =>
            decide (b.effective_date ≤ asof ∧ b.effective_date ∉ pr)) =
          rest.filter fun b =>
            decide (b.effective_date ≤ asof ∧ b.effective_date ∉ pr) := by
        exact List.filter_cons_of_neg (by simpa using hc)
      rw [hconsf]

/-- C8: on a non-flat position, `process_actions_for_symbol` applies the
eligible actions (effective at or before `asof`, date not yet processed) to
the position — splits first, via `apply_corporate_actions` — then credits
the post-split `shares × dividend` cashflow (1e-10-rounded) to cash in the
position's currency and returns it; immediately repeating the call with the
same actions applies nothing and credits `0`.  Dates are assumed pairwise
distinct within the batch. -/
theorem process_actions_applies_and_is_idempotent (p : Portfolio) (symbol_id : ℕ)
    (pos : Position) (actions : List CorporateAction) (asof : ℤ)
    (hpos : p.positions symbol_id = some pos)
    (hq : pos.quantity ≠ 0)
    (hnodup : (actions.map fun a => a.effective_date).Nodup) :
    (p.process_actions_for_symbol symbol_id actions asof).2 =
      dividend_cashflow_on_exdate
        (pos.apply_corporate_actions (eligibleActions p symbol_id actions asof)).quantity
        ((eligibleActions p symbol_id actions asof).filter fun a => decide (a.dividend ≠ 0)) ∧
    (p.process_actions_for_symbol symbol_id actions asof).1.positions symbol_id =
      some (pos.apply_corporate_actions (eligibleActions p symbol_id actions asof)) ∧
    (p.process_actions_for_symbol symbol_id actions asof).1.cash_by_ccy pos.currency =
      p.cash_by_ccy pos.currency + (p.process_actions_for_symbol symbol_id actions asof).2 ∧
    (p.process_actions_for_symbol symbol_id actions asof).1.process_actions_for_symbol
        symbol_id actions asof =
      ((p.process_actions_for_symbol symbol_id actions asof).1, 0) := by
  have hfold := processActionsStep_foldl asof actions [] [] (p.processed_actions symbol_id) hnodup
  rw [List.nil_append, List.nil_append] at hfold
  have hEdef : actions.filter (fun a =>
      decide (a.effective_date ≤ asof ∧ a.effective_date ∉ p.processed_actions symbol_id)) =
      eligibleActions p symbol_id actions asof := rfl
  rw [hEdef] at hfold
  by_cases hEe : eligibleActions p symbol_id actions asof = []
  · have hrun : p.process_actions_for_symbol symbol_id actions asof = (p, 0) := by
      unfold Portfolio.process_actions_for_symbol
      rw [hpos]
      dsimp only
      rw [if_neg hq, hfold]
      dsimp only
      rw [if_pos hEe]
    rw [hrun]
    refine ⟨?_, ?_, ?_, ?_⟩
    · rw [hEe]
      simp [dividend_cashflow_on_exdate, round10_zero]
    · rw [hEe]
      simp [Position.apply_corporate_actions, hpos]
    · simp
    · exact hrun
  · have hrun : p.process_actions_for_symbol symbol_id actions asof =
        (if dividend_cashflow_on_exdate
              (pos.apply_corporate_actions (eligibleActions p symbol_id actions asof)).quantity
              ((eligibleActions p symbol_id actions asof).filter fun a =>
                decide (a.dividend ≠ 0)) ≠ 0 then
          ({ p with
              positions := Function.update p.positions symbol_id
                (some (pos.apply_corporate_actions (eligibleActions p symbol_id actions asof))),
              processed_actions := Function.update p.processed_actions symbol_id
                (p.processed_actions symbol_id ++
                  (eligibleActions p symbol_id actions asof).map
                    fun a => a.effective_date) } : Portfolio).deposit
            (dividend_cashflow_on_exdate
              (pos.apply_corporate_actions (eligibleActions p symbol_id actions asof)).quantity
              ((eligibleActions p symbol_id actions asof).filter fun a =>
                decide (a.dividend ≠ 0)))
            pos.currency
        else
          { p with
            positions := Function.update p.positions symbol_id
              (some (pos.apply_corporate_actions (eligibleActions p symbol_id actions asof))),
            processed_actions := Function.update p.processed_actions symbol_id
              (p.processed_actions symbol_id ++
                (eligibleActions p symbol_id actions asof).map fun a => a.effective_date) },
        dividend_cashflow_on_exdate
          (pos.apply_corporate_actions (eligibleActions p symbol_id actions asof)).quantity
          ((eligibleActions p symbol_id actions asof).filter fun a =>
            decide (a.dividend ≠ 0))) := by
      unfold Portfolio.process_actions_for_symbol
      rw [hpos]
      dsimp only
      rw [if_neg hq, hfold]
      dsimp only
      rw [if_neg hEe]
    rw [hrun]
    refine ⟨?_, ?_, ?_, ?_⟩
    · dsimp only
    · dsimp only
      split
      · simp [Portfolio.deposit, Function.update_same]
      · simp [Function.update_same]
    · dsimp only
      split
      · rename_i hdc
        simp [Portfolio.deposit, Portfolio.get_cash, Function.update_same]
      · rename_i hdc
        push_neg at hdc
        rw [hdc, add_zero]
    · dsimp only
      have hR1pos : (if dividend_cashflow_on_exdate
            (pos.apply_corporate_actions (eligibleActions p symbol_id actions asof)).quantity
            ((eligibleActions p symbol_id actions asof).filter fun a =>
              decide (a.dividend ≠ 0)) ≠ 0 then
          ({ p with
              positions := Function.update p.positions symbol_id
                (some (pos.apply_corporate_actions (eligibleActions p symbol_id actions asof))),
              processed_actions := Function.update p.processed_actions symbol_id
                (p.processed_actions symbol_id ++
                  (eligibleActions p symbol_id actions asof).map
                    fun a => a.effective_date) } : Portfolio).deposit
            (dividend_cashflow_on_exdate
              (pos.apply_corporate_actions (eligibleActions p symbol_id actions asof)).quantity
              ((eligibleActions p symbol_id actions asof).filter fun a =>
                decide (a.dividend ≠ 0)))
            pos.currency
        else
          { p with
            positions := Function.update p.positions symbol_id
              (some (pos.apply_corporate_actions (eligibleActions p symbol_id actions asof))),
            processed_actions := Function.update p.processed_actions symbol_id
              (p.processed_actions symbol_id ++
                (eligibleActions p symbol_id actions asof).map
                  fun a => a.effective_date) }).positions symbol_id =
          some (pos.apply_corporate_actions (eligibleActions p symbol_id actions asof)) := by
        split <;> simp [Portfolio.deposit, Function.update_same]
      have hR1proc : (if dividend_cashflow_on_exdate
            (pos.apply_corporate_actions (eligibleActions p symbol_id actions asof)).quantity
            ((eligibleActions p symbol_id actions asof).filter fun a =>
              decide (a.dividend ≠ 0)) ≠ 0 then
          ({ p with
              positions := Function.update p.positions symbol_id
                (some (pos.apply_corporate_actions (eligibleActions p symbol_id actions asof))),
              processed_actions := Function.update p.processed_actions symbol_id
                (p.processed_actions symbol_id ++
                  (eligibleActions p symbol_id actions asof).map
                    fun a => a.effective_date) } : Portfolio).deposit
            (dividend_cashflow_on_exdate
              (pos.apply_corporate_actions (eligibleActions p symbol_id actions asof)).quantity
              ((eligibleActions p symbol_id actions asof).filter fun a =>
                decide (a.dividend ≠ 0)))
            pos.currency
        else
          { p with
            positions := Function.update p.positions symbol_id
              (some (pos.apply_corporate_actions (eligibleActions p symbol_id actions asof))),
            processed_actions := Function.update p.processed_actions symbol_id
              (p.processed_actions symbol_id ++
                (eligibleActions p symbol_id actions asof).map
                  fun a => a.effective_date) }).processed_actions symbol_id =
          p.processed_actions symbol_id ++
            (eligibleActions p symbol_id actions asof).map fun a => a.effective_date := by
        split <;> simp [Portfolio.deposit, Function.update_same]
      generalize hR1 : (if dividend_cashflow_on_exdate
            (pos.apply_corporate_actions (eligibleActions p symbol_id actions asof)).quantity
            ((eligibleActions p symbol_id actions asof).filter fun a =>
              decide (a.dividend ≠ 0)) ≠ 0 then
          ({ p with
              positions := Function.update p.positions symbol_id
                (some (pos.apply_corporate_actions (eligibleActions p symbol_id actions asof))),
              processed_actions := Function.update p.processed_actions symbol_id
                (p.processed_actions symbol_id ++
                  (eligibleActions p symbol_id actions asof).map
                    fun a => a.effective_date) } : Portfolio).deposit
            (dividend_cashflow_on_exdate
              (pos.apply_corporate_actions (eligibleActions p symbol_id actions asof)).quantity
              ((eligibleActions p symbol_id actions asof).filter fun a =>
                decide (a.dividend ≠ 0)))
            pos.currency
        else
          { p with
            positions := Function.update p.positions symbol_id
              (some (pos.apply_corporate_actions (eligibleActions p symbol_id actions asof))),
            processed_actions := Function.update p.processed_actions symbol_id
              (p.processed_actions symbol_id ++
                (eligibleActions p symbol_id actions asof).map
                  fun a => a.effective_date) }) = R1 at hR1pos hR1proc ⊢
      unfold Portfolio.process_actions_for_symbol
      rw [hR1pos]
      dsimp only
      by_cases hq2 :
          (pos.apply_corporate_actions (eligibleActions p symbol_id actions asof)).quantity = 0
      · rw [if_pos hq2]
      · rw [if_neg hq2]
        have hfold2 := processActionsStep_foldl asof actions [] []
          (R1.processed_actions symbol_id) hnodup
        rw [List.nil_append, List.nil_append] at hfold2
        have hE2 : actions.filter (fun a =>
            decide (a.effective_date ≤ asof ∧
              a.effective_date ∉ R1.processed_actions symbol_id)) = [] := by
          rw [List.filter_eq_nil_iff]
          intro a ha
          simp only [decide_eq_true_eq, not_and, not_not]
          intro hle
          rw [hR1proc]
          by_cases hmem : a.effective_date ∈ p.processed_actions symbol_id
          · exact List.mem_append_left _ hmem
          · refine List.mem_append_right _ (List.mem_map_of_mem _ ?_)
            rw [eligibleActions, List.mem_filter]
            exact ⟨ha, decide_eq_true ⟨hle, hmem⟩⟩
        rw [hfold2, hE2]
        dsimp only
        rw [if_pos rfl]

/-- Closed witness for `process_actions_applies_and_is_idempotent`: 200
shares receiving a 0.5-per-share dividend credit exactly 100 to EUR cash,
and reprocessing the same action credits nothing. -/
theorem process_actions_witness :
    (divPortfolio.process_actions_for_symbol 1 [divAction] 5).2 = 100 ∧
    (divPortfolio.process_actions_for_symbol 1 [divAction] 5).1.cash_by_ccy
        divPosition.currency =
      divPortfolio.cash_by_ccy divPosition.currency + 100 ∧
    (divPortfolio.process_actions_for_symbol 1 [divAction] 5).1.process_actions_for_symbol
        1 [divAction] 5 =
      ((divPortfolio.process_actions_for_symbol 1 [divAction] 5).1, 0) := by
  have h := process_actions_applies_and_is_idempotent divPortfolio 1 divPosition [divAction] 5
    (by simp [divPortfolio]) (by norm_num [divPosition]) (by simp)
  have hval : dividend_cashflow_on_exdate
      (divPosition.apply_corporate_actions (eligibleActions divPortfolio 1 [divAction] 5)).quantity
      ((eligibleActions divPortfolio 1 [divAction] 5).filter fun a =>
        decide (a.dividend ≠ 0)) = 100 := by
    norm_num [eligibleActions, divPortfolio, divAction, divPosition,
      Position.apply_corporate_actions, apply_actions, applyActionsStep,
      dividend_cashflow_on_exdate, round10, roundHalfEven, List.filter]
  refine ⟨h.1.trans hval, ?_, h.2.2.2⟩
  rw [h.2.2.1, h.1, hval]

theorem keyLt_iff_keyOf_lt (a b : Event) : keyLt a b ↔ keyOf a < keyOf b := by
  unfold keyLt keyOf
  rw [Prod.Lex.lt_iff, Prod.Lex.lt_iff]

/-- `minByKey h t` is an element of `h :: t` of minimal key. -/
theorem minByKey_spec (t : List Event) : ∀ h : Event,
    minByKey h t ∈ h :: t ∧ ∀ e ∈ h :: t, keyOf (minByKey h t) ≤ keyOf e := by
  induction t with
  | nil =>
    intro h
    refine ⟨List.mem_singleton_self h, ?_⟩
    intro e he
    rw [List.mem_singleton] at he
    subst he
    exact le_refl _
  | cons a t ih =>
    intro h
    have hrw : minByKey h (a :: t) = minByKey (if keyLt a h then a else h) t := rfl
    obtain ⟨hmem, hmin⟩ := ih (if keyLt a h then a else h)
    rw [hrw]
    constructor
    · rcases List.mem_cons.mp hmem with he | he
      · rw [he]
        split_ifs
        · exact List.mem_cons_of_mem _ (List.mem_cons_self _ _)
        · exact List.mem_cons_self _ _
      · exact List.mem_cons_of_mem _ (List.mem_cons_of_mem _ he)
    · intro e he
      by_cases hc : keyLt a h
      · rw [if_pos hc] at hmin ⊢
        have hh' : keyOf (minByKey a t) ≤ keyOf a := hmin _ (List.mem_cons_self _ _)
        rcases List.mem_cons.mp he with he1 | he
        · subst he1
          exact le_trans hh' (le_of_lt ((keyLt_iff_keyOf_lt a _).mp hc))
        rcases List.mem_cons.mp he with he2 | he2
        · subst he2
          exact hh'
        · exact hmin _ (List.mem_cons_of_mem _ he2)
      · rw [if_neg hc] at hmin ⊢
        have hh' : keyOf (minByKey h t) ≤ keyOf h := hmin _ (List.mem_cons_self _ _)
        rcases List.mem_cons.mp he with he1 | he
        · subst he1
          exact hh'
        rcases List.mem_cons.mp he with he2 | he2
        · subst he2
          rw [keyLt_iff_keyOf_lt] at hc
          push_neg at hc
          exact le_trans hh' hc
        · exact hmin _ (List.mem_cons_of_mem _ he2)

/-- What one `pop` returns: a minimal-key member, with the heap shrunk by one
occurrence of it. -/
theorem pop_spec (q : EventQueue) (e : Event) (q2 : EventQueue)
    (h : q.pop = some (e, q2)) :
    e ∈ q.heap ∧ q2.heap = q.heap.erase e ∧ ∀ x ∈ q.heap, keyOf e ≤ keyOf x := by
  unfold EventQueue.pop at h
  cases hq : q.heap with
  | nil => rw [hq] at h; exact absurd h (by simp)
  | cons hd t =>
    rw [hq] at h
    simp only [Option.some.injEq, Prod.mk.injEq] at h
    obtain ⟨he, hq2⟩ := h
    obtain ⟨hmem, hmin⟩ := minByKey_spec t hd
    rw [he] at hmem hmin
    refine ⟨hmem, ?_, hmin⟩
    rw [← hq2]
    dsimp only
    rw [he]

/-- Elements of a list with `Nodup` projected sequence numbers and equal keys
are equal. -/
theorem eq_of_keyOf_eq (l : List Event) (hnd : (l.map Event.seq).Nodup)
    (x y : Event) (hx : x ∈ l) (hy : y ∈ l) (hk : keyOf x = keyOf y) : x = y := by
  have h2 : x.seq = y.seq := congrArg (fun p : ℤ ×ₗ ℕ ×ₗ ℕ => (ofLex (ofLex p).2).2) hk
  exact List.inj_on_of_nodup_map hnd hx hy h2

/-- Draining with enough fuel yields a permutation of the heap, strictly
sorted by `keyLt`. -/
theorem drainAux_perm_sorted : ∀ (n : ℕ) (q : EventQueue),
    q.heap.length ≤ n → (q.heap.map Event.seq).Nodup →
    (EventQueue.drainAux n q).Perm q.heap ∧
      (EventQueue.drainAux n q).Pairwise keyLt := by
  intro n
  induction n with
  | zero =>
    intro q hlen hnd
    have : q.heap = [] := List.length_eq_zero.mp (Nat.le_zero.mp hlen)
    rw [EventQueue.drainAux, this]
    exact ⟨List.Perm.refl _, List.Pairwise.nil⟩
  | succ n ih =>
    intro q hlen hnd
    cases hpop : q.pop with
    | none =>
      have hq : q.heap = [] := by
        unfold EventQueue.pop at hpop
        cases hq : q.heap with
        | nil => rfl
        | cons hd t => rw [hq] at hpop; exact absurd hpop (by simp)
      rw [EventQueue.drainAux, hpop, hq]
      exact ⟨List.Perm.refl _, List.Pairwise.nil⟩
    | some r =>
      obtain ⟨e, q2⟩ := r
      obtain ⟨hmem, hq2, hmin⟩ := pop_spec q e q2 hpop
      have hval_nodup : q.heap.Nodup := (List.Nodup.of_map _ hnd)
      have hlen2 : q2.heap.length ≤ n := by
        rw [hq2, List.length_erase_of_mem hmem]
        omega
      have hnd2 : (q2.heap.map Event.seq).Nodup := by
        rw [hq2]
        exact List.Nodup.sublist (List.Sublist.map _ (List.erase_sublist _ _)) hnd
      obtain ⟨hperm, hsorted⟩ := ih q2 hlen2 hnd2
      have hdrain : EventQueue.drainAux (n + 1) q = e :: EventQueue.drainAux n q2 := by
        rw [EventQueue.drainAux, hpop]
      rw [hdrain]
      constructor
      · rw [hq2] at hperm
        exact (hperm.cons e).trans (List.perm_cons_erase hmem).symm
      · refine List.Pairwise.cons ?_ hsorted
        intro x hx
        have hx2 : x ∈ q.heap.erase e := (hq2 ▸ hperm.subset) hx
        obtain ⟨hxe, hxq⟩ := (List.Nodup.mem_erase_iff hval_nodup).mp hx2
        have hle := hmin x hxq
        rw [keyLt_iff_keyOf_lt]
        rcases lt_or_eq_of_le hle with hlt | heq
        · exact hlt
        · exact absurd (eq_of_keyOf_eq q.heap hnd e x hmem hxq heq) (fun hex => hxe hex.symm)

/-- Folding `push` over a request list appends the corresponding events, with
sequence numbers continuing from the queue's counter. -/
theorem pushAll_foldl_heap : ∀ (items : List (ℤ × EventType × Option ℤ)) (q : EventQueue),
    (items.foldl (fun q it => (q.push it.1 it.2.1 it.2.2).2) q).heap =
      q.heap ++ (List.enumFrom q.seq_counter items).map
        (fun it => { ts := it.2.1, type := it.2.2.1, payload := it.2.2.2, seq := it.1 }) ∧
    (items.foldl (fun q it => (q.push it.1 it.2.1 it.2.2).2) q).seq_counter =
      q.seq_counter + items.length
  | [], q => by simp
  | it :: rest, q => by
    rw [List.foldl_cons]
    obtain ⟨hheap, hctr⟩ := pushAll_foldl_heap rest ((q.push it.1 it.2.1 it.2.2).2)
    rw [hheap, hctr]
    constructor
    · simp [EventQueue.push, List.enumFrom]
    · simp [EventQueue.push]
      omega

/-- C6: after any sequence of pushes, the heap holds exactly the pushed
events in insertion order (the i-th pushed event carries `seq = i`), and
successive pops return all of them, strictly sorted by the key
`(timestamp, type_rank, insertion_sequence)`: earlier timestamps first, then
the fixed type-rank order CLOCK < BAR < FX < CORPORATE_ACTION, then FIFO
insertion order. -/
theorem eventqueue_pop_ordering (items : List (ℤ × EventType × Option ℤ)) :
    (EventQueue.pushAll items).heap =
      (items.enum.map fun it =>
        { ts := it.2.1, type := it.2.2.1, payload := it.2.2.2, seq := it.1 }) ∧
    (EventQueue.pushAll items).drain.Perm (EventQueue.pushAll items).heap ∧
    (EventQueue.pushAll items).drain.Pairwise keyLt ∧
    (EventType.rank EventType.CLOCK < EventType.rank EventType.BAR ∧
      EventType.rank EventType.BAR < EventType.rank EventType.FX ∧
      EventType.rank EventType.FX < EventType.rank EventType.CORPORATE_ACTION) := by
  have hheap := (pushAll_foldl_heap items {}).1
  have hheap2 : (EventQueue.pushAll items).heap =
      (items.enum.map fun it =>
        { ts := it.2.1, type := it.2.2.1, payload := it.2.2.2, seq := it.1 }) := by
    rw [EventQueue.pushAll, hheap]
    rfl
  have hnd : ((EventQueue.pushAll items).heap.map Event.seq).Nodup := by
    rw [hheap2, List.map_map]
    have : (Event.seq ∘ fun it : ℕ × ℤ × EventType × Option ℤ =>
        ({ ts := it.2.1, type := it.2.2.1, payload := it.2.2.2, seq := it.1 } : Event)) =
        Prod.fst := rfl
    rw [this, List.enum_map_fst]
    exact List.nodup_range _
  obtain ⟨hperm, hsorted⟩ := drainAux_perm_sorted (EventQueue.pushAll items).heap.length
    (EventQueue.pushAll items) (le_refl _) hnd
  exact ⟨hheap2, hperm, hsorted, by decide⟩

/-- The clamped embargo fraction never demands more than `embargo + 1`
timesteps: `⌊n·clamp(e)⌋ + 1 > n·clamp(e)`. -/
theorem embargoCount_ge (n : ℕ) (e : ℚ) :
    max 0 (min e (1/2)) * n ≤ (embargoCount n e : ℚ) + 1 := by
  unfold embargoCount
  have h0 : (0:ℚ) ≤ (n:ℚ) * max 0 (min e (1/2)) :=
    mul_nonneg (Nat.cast_nonneg n) (le_max_left 0 _)
  have hfl : (0:ℤ) ≤ ⌊(n:ℚ) * max 0 (min e (1/2))⌋ := Int.floor_nonneg.mpr h0
  have hkey : ((⌊(n:ℚ) * max 0 (min e (1/2))⌋.toNat : ℕ) : ℚ) =
      ((⌊(n:ℚ) * max 0 (min e (1/2))⌋ : ℤ) : ℚ) := by
    exact_mod_cast congrArg (fun z : ℤ => (z : ℚ)) (Int.toNat_of_nonneg hfl)
  rw [hkey, mul_comm]
  exact le_of_lt (Int.lt_floor_add_one _)

/-- Reading strictly increasing times at increasing in-range indices is
strictly increasing. -/
theorem timeAt_lt (times : List ℤ) (hs : times.Pairwise (· < ·)) (i j : ℤ)
    (h0 : 0 ≤ i) (hij : i < j) (hj : j < (times.length : ℤ)) :
    timeAt times i < timeAt times j := by
  have h0j : (0:ℤ) ≤ j := le_trans h0 (le_of_lt hij)
  unfold timeAt
  rw [if_pos h0, if_pos h0j]
  have hjn : j.toNat < times.length := by omega
  have hin : i.toNat < times.length := by omega
  rw [List.getD_eq_getElem times 0 hin, List.getD_eq_getElem times 0 hjn]
  have := List.pairwise_iff_get.mp hs ⟨i.toNat, hin⟩ ⟨j.toNat, hjn⟩ (by simp; omega)
  simpa [List.get_eq_getElem] using this

/-- Every training range produced by one purged-k-fold iteration is either
the left block `(0, vs - 1 - embargo)` (when that end is in range) or the
right block `(ve + 1 + embargo, n - 1)` (when that start is in range). -/
theorem purgedFoldIdx_train_cases (n k fs em i : ℕ) (r : ℤ × ℤ)
    (hr : r ∈ (purgedFoldIdx n k fs em i).train_ranges) :
    (0 ≤ ((i * fs : ℕ) : ℤ) - 1 - em ∧ r = (0, ((i * fs : ℕ) : ℤ) - 1 - em)) ∨
    (((purgedFoldIdx n k fs em i).val_range.2 + 1 + em) ≤ (n : ℤ) - 1 ∧
      r = ((purgedFoldIdx n k fs em i).val_range.2 + 1 + em, (n : ℤ) - 1)) := by
  have hr2 : r ∈
      (if (0:ℤ) ≤ max (-1) (((i * fs : ℕ) : ℤ) - 1 - em) then
        [((0:ℤ), max (-1) (((i * fs : ℕ) : ℤ) - 1 - em))] else ([] : List (ℤ × ℤ))) ++
      (if min ((n:ℤ)) ((purgedFoldIdx n k fs em i).val_range.2 + 1 + em) ≤ (n : ℤ) - 1 then
        [(min ((n:ℤ)) ((purgedFoldIdx n k fs em i).val_range.2 + 1 + em), (n:ℤ) - 1)]
      else ([] : List (ℤ × ℤ))) := hr
  rcases List.mem_append.mp hr2 with hl | hrr
  · left
    by_cases hcl : (0:ℤ) ≤ max (-1) (((i * fs : ℕ) : ℤ) - 1 - em)
    · rw [if_pos hcl, List.mem_singleton] at hl
      have hX : (-1:ℤ) ≤ ((i * fs : ℕ) : ℤ) - 1 - em := by
        by_contra hcon
        push_neg at hcon
        rw [max_eq_left (le_of_lt hcon)] at hcl
        omega
      rw [max_eq_right hX] at hcl hl
      exact ⟨hcl, hl⟩
    · rw [if_neg hcl] at hl
      exact absurd hl (List.not_mem_nil r)
  · right
    by_cases hcr : min ((n:ℤ))
        ((purgedFoldIdx n k fs em i).val_range.2 + 1 + em) ≤ (n : ℤ) - 1
    · rw [if_pos hcr, List.mem_singleton] at hrr
      have hX : (purgedFoldIdx n k fs em i).val_range.2 + 1 + em ≤ (n:ℤ) - 1 := by
        rcases le_total ((n:ℤ)) ((purgedFoldIdx n k fs em i).val_range.2 + 1 + em) with h | h
        · rw [min_eq_left h] at hcr
          omega
        · rwa [min_eq_right h] at hcr
      rw [min_eq_right (le_trans hX (by omega))] at hrr
      exact ⟨hX, hrr⟩
    · rw [if_neg hcr] at hrr
      exact absurd hrr (List.not_mem_nil r)

/-- Every fold produced by the walk-forward loop has its training range
strictly before the validation range, separated by exactly `1 + embargo`
timesteps, with the validation range inside the timeline. -/
theorem wfAux_spec (n w tw step em : ℕ) (hw : 1 ≤ w) (htw : 1 ≤ tw) :
    ∀ (fuel i : ℕ), ∀ F ∈ walkForwardAux n w tw step em fuel i, ∀ r ∈ F.train_ranges,
      0 ≤ r.1 ∧ 0 ≤ r.2 ∧ r.2 < F.val_range.1 ∧ F.val_range.1 - r.2 = 1 + (em : ℤ) ∧
        F.val_range.1 ≤ F.val_range.2 ∧ F.val_range.2 < (n : ℤ) := by
  intro fuel
  induction fuel with
  | zero =>
    intro i F hF
    exact absurd hF (List.not_mem_nil F)
  | succ fuel ih =>
    intro i F hF r hr
    rw [walkForwardAux] at hF
    split_ifs at hF with hend
    · exact absurd hF (List.not_mem_nil F)
    · rcases List.mem_cons.mp hF with hF1 | hF2
      · subst hF1
        rw [List.mem_singleton] at hr
        subst hr
        push_neg at hend
        refine ⟨by positivity, by positivity, ?_, ?_, ?_, ?_⟩ <;>
          · dsimp only
            omega
      · exact ih (i + step) F hF2 r hr

/-- C7 (amended): over a strictly sorted timeline, every generated fold
(purged k-fold or walk-forward) has all training ranges disjoint from the
validation range, both at index and at timestamp level, and the training
ranges end/begin at least `clamp(e, 0, 0.5) × |timeline|` timesteps away
from the adjacent validation boundary — the generators clamp the embargo
fraction into `[0, 0.5]`, so for `e > 1/2` only the clamped guarantee
holds. -/
theorem folds_nonoverlap_and_embargo :
    (∀ (times : List ℤ) (k : ℕ) (e : ℚ) (folds : List FoldIdx),
      times.Pairwise (· < ·) →
      make_purged_kfold_folds_idx times.length k e = Except.ok folds →
      make_purged_kfold_folds times k e = Except.ok (folds.map (mapFoldIdx times)) ∧
      ∀ F ∈ folds, ∀ r ∈ F.train_ranges,
        (r.2 < F.val_range.1 ∨ F.val_range.2 < r.1) ∧
        (r.2 < F.val_range.1 →
          max 0 (min e (1/2)) * times.length ≤ ((F.val_range.1 - r.2 : ℤ) : ℚ)) ∧
        (F.val_range.2 < r.1 →
          max 0 (min e (1/2)) * times.length ≤ ((r.1 - F.val_range.2 : ℤ) : ℚ)) ∧
        (timeAt times r.2 < timeAt times F.val_range.1 ∨
          timeAt times F.val_range.2 < timeAt times r.1)) ∧
    (∀ (times : List ℤ) (w tw : ℕ) (step? : Option ℕ) (e : ℚ) (folds : List FoldIdx),
      times.Pairwise (· < ·) →
      make_walk_forward_folds_idx times.length w tw step? e = Except.ok folds →
      make_walk_forward_folds times w tw step? e =
        Except.ok (folds.map (mapFoldIdx times)) ∧
      ∀ F ∈ folds, ∀ r ∈ F.train_ranges,
        r.2 < F.val_range.1 ∧
        max 0 (min e (1/2)) * times.length ≤ ((F.val_range.1 - r.2 : ℤ) : ℚ) ∧
        timeAt times r.2 < timeAt times F.val_range.1) := by
  constructor
  · intro times k e folds hsorted hok
    refine ⟨by rw [make_purged_kfold_folds, hok]; rfl, ?_⟩
    intro F hF r hr
    unfold make_purged_kfold_folds_idx at hok
    split_ifs at hok with h1 h2 <;> try exact Except.noConfusion hok
    rw [Except.ok.injEq] at hok
    rw [← hok] at hF
    rw [List.mem_map] at hF
    obtain ⟨i, hi, hFi⟩ := hF
    rw [List.mem_range] at hi
    subst hFi
    push_neg at h1 h2
    set n := times.length with hn
    set fs := max 1 (n / k) with hfs
    set em := embargoCount n e with hem
    have hd1 : 1 ≤ n / k := (Nat.one_le_div_iff (by omega)).mpr h2
    have hfseq : fs = n / k := max_eq_right hd1
    have hmulk : n / k * k ≤ n := Nat.div_mul_le_self n k
    have hkmul : k * fs = (k - 1) * fs + fs := by
      rw [← Nat.succ_mul]
      congr 1
      omega
    have hkfs : k * fs ≤ n := by
      rw [hfseq, Nat.mul_comm]
      exact hmulk
    have hIle : i * fs ≤ (k - 1) * fs := Nat.mul_le_mul_right fs (by omega)
    have hfs1 : 1 ≤ fs := le_max_left 1 _
    have hvs_le : i * fs ≤ n - 1 := by omega
    have hv1 : (purgedFoldIdx n k fs em i).val_range.1 = ((i * fs : ℕ) : ℤ) := rfl
    have hv2 : (purgedFoldIdx n k fs em i).val_range.2 =
        ((if i = k - 1 then n - 1 else min (n - 1) ((i + 1) * fs - 1) : ℕ) : ℤ) := rfl
    have hsucc : (i + 1) * fs = i * fs + fs := by
      rw [Nat.succ_mul]
    have hve_le : (if i = k - 1 then n - 1 else min (n - 1) ((i + 1) * fs - 1)) ≤ n - 1 := by
      split
      · exact le_refl _
      · exact min_le_left _ _
    have hvs_ve : i * fs ≤ (if i = k - 1 then n - 1 else min (n - 1) ((i + 1) * fs - 1)) := by
      split
      · exact hvs_le
      · exact le_min hvs_le (by omega)
    have hgap := embargoCount_ge n e
    rw [← hem] at hgap
    rcases purgedFoldIdx_train_cases n k fs em i r hr with ⟨hge, hreq⟩ | ⟨hle, hreq⟩
    · subst hreq
      rw [hv1, hv2]
      refine ⟨Or.inl (by omega), ?_, ?_, Or.inl ?_⟩
      · intro hlt
        have : ((((i * fs : ℕ) : ℤ) - (((i * fs : ℕ) : ℤ) - 1 - em) : ℤ) : ℚ) =
            (em : ℚ) + 1 := by
          push_cast
          ring
        rw [this]
        exact hgap
      · intro hlt
        exfalso
        omega
      · apply timeAt_lt times hsorted _ _ hge (by omega)
        rw [← hn]
        omega
    · subst hreq
      rw [hv1, hv2]
      rw [hv2] at hle
      refine ⟨Or.inr (by omega), ?_, ?_, Or.inr ?_⟩
      · intro hlt
        exfalso
        dsimp only at hlt
        omega
      · intro hlt
        have : ((((if i = k - 1 then n - 1
              else min (n - 1) ((i + 1) * fs - 1) : ℕ) : ℤ) + 1 + em -
              ((if i = k - 1 then n - 1
              else min (n - 1) ((i + 1) * fs - 1) : ℕ) : ℤ) : ℤ) : ℚ) = (em : ℚ) + 1 := by
          push_cast
          ring
        rw [this]
        exact hgap
      · apply timeAt_lt times hsorted _ _ (by positivity) (by omega)
        rw [← hn]
        omega
  · intro times w tw step? e folds hsorted hok
    refine ⟨by rw [make_walk_forward_folds, hok]; rfl, ?_⟩
    intro F hF r hr
    unfold make_walk_forward_folds_idx at hok
    split_ifs at hok with h1 <;> try exact Except.noConfusion hok
    dsimp only at hok
    rw [Except.ok.injEq] at hok
    rw [← hok] at hF
    push_neg at h1
    have hspec := wfAux_spec times.length w tw _
      (embargoCount times.length e) (by omega) (by omega)
      (times.length + 1) 0 F hF r hr
    obtain ⟨hr1, hr1b, hr2, hgapeq, hvv, hvn⟩ := hspec
    have hgap := embargoCount_ge times.length e
    refine ⟨hr2, ?_, ?_⟩
    · rw [show ((F.val_range.1 - r.2 : ℤ) : ℚ) = (embargoCount times.length e : ℚ) + 1 from by
        rw [hgapeq]; push_cast; ring]
      exact hgap
    · apply timeAt_lt times hsorted _ _ (by omega) hr2
      omega

/-- C7, counterexample to the unconditional gap guarantee: with
`embargo_fraction = 3/5 > 0` over a 12-point timeline and 3 splits, the
generators clamp the fraction to `1/2`, so `embargo = 6` and the first
fold's right training range starts only `10 - 3 = 7` timesteps after the
validation end, while `e × |timeline| = 36/5 = 7.2 > 7`. -/
theorem purged_kfold_embargo_counterexample :
    times12.Pairwise (· < ·) ∧ (0 : ℚ) < 3/5 ∧
    make_purged_kfold_folds times12 3 (3/5) =
      Except.ok [
        { train_ranges := [((10 : ℤ), (11 : ℤ))], val_range := ((0 : ℤ), (3 : ℤ)) },
        { train_ranges := [], val_range := (4, 7) },
        { train_ranges := [(0, 1)], val_range := (8, 11) } ] ∧
    (3 : ℤ) < 10 ∧ ¬ ((3/5 : ℚ) * times12.length ≤ ((10 - 3 : ℤ) : ℚ)) := by
  refine ⟨by decide, by norm_num, ?_, by decide, ?_⟩
  · have hem : embargoCount 12 (3/5) = 6 := by
      norm_num [embargoCount, min_def, max_def]
      rfl
    show (make_purged_kfold_folds_idx 12 3 (3/5)).map (List.map (mapFoldIdx times12)) = _
    unfold make_purged_kfold_folds_idx
    rw [if_neg (by norm_num), if_neg (by norm_num), hem]
    rfl
  · intro hc
    rw [show ((10 - 3 : ℤ) : ℚ) = 7 from by norm_num,
      show ((times12.length : ℕ) : ℚ) = 12 from by norm_num [times12]] at hc
    norm_num at hc

/-- Closed witness for `folds_nonoverlap_and_embargo`: both generators on the
concrete 12-point timeline with `embargo_fraction = 1/10`. -/
theorem folds_nonoverlap_and_embargo_witness :
    (make_purged_kfold_folds times12 3 (1/10) =
      Except.ok [
        { train_ranges := [((5 : ℤ), (11 : ℤ))], val_range := ((0 : ℤ), (3 : ℤ)) },
        { train_ranges := [(0, 2), (9, 11)], val_range := (4, 7) },
        { train_ranges := [(0, 6)], val_range := (8, 11) } ] ∧
      max 0 (min (1/10 : ℚ) (1/2)) * times12.length ≤ (((5 : ℤ) - 3 : ℤ) : ℚ)) ∧
    (make_walk_forward_folds times12 3 2 none (1/10) =
      Except.ok [
        { train_ranges := [((0 : ℤ), (2 : ℤ))], val_range := ((4 : ℤ), (5 : ℤ)) },
        { train_ranges := [(2, 4)], val_range := (6, 7) },
        { train_ranges := [(4, 6)], val_range := (8, 9) },
        { train_ranges := [(6, 8)], val_range := (10, 11) } ] ∧
      max 0 (min (1/10 : ℚ) (1/2)) * times12.length ≤ (((4 : ℤ) - 2 : ℤ) : ℚ)) := by
  have hem : embargoCount 12 (1/10) = 1 := by
    norm_num [embargoCount, min_def, max_def]
  have hok : make_purged_kfold_folds_idx times12.length 3 (1/10) =
      Except.ok [
        { train_ranges := [((5 : ℤ), (11 : ℤ))], val_range := ((0 : ℤ), (3 : ℤ)) },
        { train_ranges := [(0, 2), (9, 11)], val_range := (4, 7) },
        { train_ranges := [(0, 6)], val_range := (8, 11) } ] := by
    show make_purged_kfold_folds_idx 12 3 (1/10) = _
    unfold make_purged_kfold_folds_idx
    rw [if_neg (by norm_num), if_neg (by norm_num), hem]
    rfl
  have hok2 : make_walk_forward_folds_idx times12.length 3 2 none (1/10) =
      Except.ok [
        { train_ranges := [((0 : ℤ), (2 : ℤ))], val_range := ((4 : ℤ), (5 : ℤ)) },
        { train_ranges := [(2, 4)], val_range := (6, 7) },
        { train_ranges := [(4, 6)], val_range := (8, 9) },
        { train_ranges := [(6, 8)], val_range := (10, 11) } ] := by
    show make_walk_forward_folds_idx 12 3 2 none (1/10) = _
    unfold make_walk_forward_folds_idx
    rw [if_neg (by simp)]
    show Except.ok (walkForwardAux 12 3 2 2 (embargoCount 12 (1/10)) 13 0) = _
    rw [hem]
    rfl
  have h1 := folds_nonoverlap_and_embargo.1 times12 3 (1/10) _ (by decide) hok
  have h2 := folds_nonoverlap_and_embargo.2 times12 3 2 none (1/10) _ (by decide) hok2
  refine ⟨⟨?_, ?_⟩, ⟨?_, ?_⟩⟩
  · rw [h1.1]
    rfl
  · exact (h1.2 _ (List.mem_cons_self _ _) (5, 11) (List.mem_cons_self _ _)).2.2.1 (by decide)
  · rw [h2.1]
    rfl
  · exact (h2.2 _ (List.mem_cons_self _ _) (0, 2) (List.mem_cons_self _ _)).2.1
